import Mathlib

/-!
Verification of the DAO SQL formatter (`format.py`).

Python strings are modelled as `List Char` (`Str`).  Each definition below
shallowly embeds the correspondingly named Python function; stateful loops
become structural recursions or folds, regular expressions used by the
source become explicit character scans, and exceptions become `Except`.
-/

abbrev Str := List Char

/-- Conversion from Lean string literals, used only to write concrete inputs. -/
def str (s : String) : Str := s.data

/-- Python's `\s` character class (ASCII whitespace, as used by `re` here). -/
def pySpace (c : Char) : Bool :=
  decide (c = ' ' ∨ c = '\t' ∨ c = '\n' ∨ c = '\r' ∨ c = '\x0b' ∨ c = '\x0c')

/-- `re.sub(r'\s+$', '', s)`, i.e. Python `rstrip` over whitespace. -/
def rstrip (s : Str) : Str := (s.reverse.dropWhile pySpace).reverse

/-- Leading-whitespace removal (`lstrip`). -/
def lstrip (s : Str) : Str := s.dropWhile pySpace

/-- Python `s.strip()`. -/
def pyStrip (s : Str) : Str := lstrip (rstrip s)

/-- State machine for `re.sub(r'\s+', ' ', s)`: every maximal whitespace run
becomes one space.  `pending` records that the current run already emitted
its space. -/
def squeezeGo (pending : Bool) : Str → Str
  | [] => []
  | c :: t =>
    if pySpace c then
      if pending then squeezeGo true t else ' ' :: squeezeGo true t
    else c :: squeezeGo false t

/-- Accumulator machine for Python `s.split()` (split on whitespace runs,
dropping empty tokens). -/
def splitWsGo (acc : Str) : Str → List Str
  | [] => if acc = [] then [] else [acc]
  | c :: t =>
    if pySpace c then
      if acc = [] then splitWsGo [] t else acc :: splitWsGo [] t
    else splitWsGo (acc ++ [c]) t

/-- Python `s.split()`. -/
def pySplit (s : Str) : List Str := splitWsGo [] s

/-- Python `' '.join(xs)`. -/
def spJoin : List Str → Str
  | [] => []
  | [x] => x
  | x :: xs => x ++ ' ' :: spJoin xs

/-- Python `'\n'.join(xs)`. -/
def nlJoin : List Str → Str
  | [] => []
  | [x] => x
  | x :: xs => x ++ '\n' :: nlJoin xs

/-- `find_max_length` from the source: maximum length of the parts after
removing trailing whitespace, plus one. -/
def find_max_length (all_parts : List Str) : Nat :=
  (all_parts.foldl (fun m p => max m (rstrip p).length) 0) + 1

/-- `pad_line` from the source: strip trailing whitespace, then pad with
spaces up to `max_length` (Python `" " * n` is empty for negative `n`,
matching truncated `Nat` subtraction). -/
def pad_line (line : Str) (max_length : Nat) : Str :=
  rstrip line ++ List.replicate (max_length - (rstrip line).length) ' '

/-- Python `word.upper()` (ASCII, as all keywords are ASCII). -/
def upper (s : Str) : Str := s.map Char.toUpper

/-- The fixed keyword vocabulary of `is_sql_keyword`. -/
def sqlKeywords : List Str :=
  [str "SELECT", str "FROM", str "WHERE", str "ORDER BY", str "GROUP BY",
   str "HAVING", str "LIMIT", str "OFFSET", str "INSERT", str "UPDATE",
   str "DELETE", str "JOIN", str "LEFT JOIN", str "RIGHT JOIN",
   str "INNER JOIN", str "VALUES", str "SET", str "AND", str "OR",
   str "ON", str "INTO", str "COMMIT"]

/-- `is_sql_keyword` from the source: membership of the upper-cased word in
the keyword set. -/
def is_sql_keyword (word : Str) : Bool := decide (upper word ∈ sqlKeywords)

/-- Python `text.rstrip(',')`. -/
def rstripComma (s : Str) : Str :=
  (s.reverse.dropWhile (fun c => decide (c = ','))).reverse

/-- Python `text.split(',')` (keeps empty pieces). -/
def splitComma : Str → List Str
  | [] => [[]]
  | c :: t =>
    if c = ',' then [] :: splitComma t
    else
      match splitComma t with
      | [] => [[c]]
      | h :: r => (c :: h) :: r

/-- The `for i in range(len(parts) - 1): parts[i] += ","` loop of
`split_variables`: append a comma to every element but the last. -/
def addCommas : List Str → List Str
  | [] => []
  | [x] => [x]
  | x :: xs => (x ++ [',']) :: addCommas xs

/-- `split_variables` from the source. -/
def split_variables (text : Str) : List Str :=
  addCommas ((((splitComma (rstripComma text)).map pyStrip).filter (fun p => p ≠ [])))

/-- `get_base_indentation` from the source (`re.match(r'^\s*', line)` always
matches, yielding the leading whitespace run). -/
def get_base_indentation (line : Str) : Str := line.takeWhile pySpace

/-- One step of `split_variables`/rendering is driven by the clause
segmentation loop of `format_sql`.  `segmentAux cur ws` is the `while` loop
with `current_part = cur` and `words[i:] = ws`. -/
def segmentAux (cur : List Str) : List Str → List Str
  | [] => if cur = [] then [] else [spJoin cur]
  | [w] =>
    if is_sql_keyword w then
      (if cur = [] then [] else [spJoin cur]) ++ [w]
    else
      (if cur ++ [w] = [] then [] else [spJoin (cur ++ [w])])
  | w1 :: w2 :: rest =>
    if is_sql_keyword (w1 ++ ' ' :: w2) then
      (if cur = [] then [] else [spJoin cur]) ++ (w1 ++ ' ' :: w2) :: segmentAux [] rest
    else if is_sql_keyword w1 then
      (if cur = [] then [] else [spJoin cur]) ++ w1 :: segmentAux [] (w2 :: rest)
    else segmentAux (cur ++ [w1]) (w2 :: rest)

/-- The per-part rendering step of `format_sql` (keyword / comma list /
plain free text). -/
def renderPart (part : Str) : List Str :=
  if is_sql_keyword part then [part]
  else if decide (',' ∈ part) then (split_variables part).map (fun v => ' ' :: ' ' :: v)
  else [' ' :: ' ' :: part]

/-- The `for part in parts` rendering loop of `format_sql`. -/
def renderAll : List Str → List Str
  | [] => []
  | p :: r => renderPart p ++ renderAll r

/-- The final emission loop of `format_sql`: the first line is
`{sql_indent}"{padded}"`, later lines are `{sql_indent}+ "{padded}"`. -/
def emitLines (ind : Str) (ml : Nat) : List Str → List Str
  | [] => []
  | p :: rest =>
    (ind ++ '"' :: pad_line p ml ++ ['"']) ::
      rest.map (fun q => ind ++ '+' :: ' ' :: '"' :: pad_line q ml ++ ['"'])

/-- `format_sql` from the source. -/
def format_sql (sql_text : Str) (base_indent : Str) : List Str :=
  let cleaned := squeezeGo false (pyStrip sql_text)
  let ws := pySplit cleaned
  let parts := segmentAux [] ws
  let formatted_parts := renderAll parts
  let max_length := find_max_length formatted_parts
  let indent_level := base_indent.length + 16
  let sql_indent := List.replicate indent_level ' '
  emitLines sql_indent max_length formatted_parts

/-!  ### Generic list/string helper lemmas  -/

theorem dropWhile_append_all {p : Char → Bool} {a b : Str}
    (h : ∀ c ∈ a, p c = true) : (a ++ b).dropWhile p = b.dropWhile p := by
  induction a with
  | nil => rfl
  | cons c t ih =>
    rw [List.cons_append, List.dropWhile_cons_of_pos (h c (by simp))]
    exact ih fun d hd => h d (by simp [hd])

theorem dropWhile_idem {p : Char → Bool} (l : Str) :
    (l.dropWhile p).dropWhile p = l.dropWhile p := by
  induction l with
  | nil => rfl
  | cons c t ih =>
    by_cases h : p c = true
    · rw [List.dropWhile_cons_of_pos h, ih]
    · rw [List.dropWhile_cons_of_neg h, List.dropWhile_cons_of_neg h]

theorem rstrip_append_spaces (x : Str) (n : Nat) :
    rstrip (x ++ List.replicate n ' ') = rstrip x := by
  unfold rstrip
  rw [List.reverse_append, List.reverse_replicate,
    dropWhile_append_all (by intro c hc; rw [List.eq_of_mem_replicate hc]; rfl)]

theorem rstrip_idem (s : Str) : rstrip (rstrip s) = rstrip s := by
  unfold rstrip
  rw [List.reverse_reverse, dropWhile_idem]

theorem rstrip_pad_line (p : Str) (m : Nat) :
    rstrip (pad_line p m) = rstrip p := by
  rw [pad_line, rstrip_append_spaces, rstrip_idem]

theorem pad_line_eq (p : Str) (m : Nat) :
    pad_line p m = rstrip p ++ List.replicate (m - (rstrip p).length) ' ' := rfl

theorem pad_line_length (p : Str) (m : Nat) (h : (rstrip p).length ≤ m) :
    (pad_line p m).length = m := by
  simp only [pad_line, List.length_append, List.length_replicate]
  omega

/-!  ### Marker stripping: undoing the emission wrappers  -/

/-- Characters forming the lead-in of an emitted line (indent spaces and the
concatenation marker) before the opening quote. -/
def markerChar (c : Char) : Bool := pySpace c || decide (c = '+')

/-- Strips an emitted line down to its quoted content: drop the indent and
any `+ ` marker up to the opening quote, the opening quote itself, and the
closing quote. -/
def stripMarkers (l : Str) : Str := ((l.dropWhile markerChar).drop 1).dropLast

theorem stripMarkers_wrap (ind x : Str) (hind : ∀ c ∈ ind, markerChar c = true) :
    stripMarkers (ind ++ '"' :: (x ++ ['"'])) = x := by
  unfold stripMarkers
  rw [dropWhile_append_all hind, List.dropWhile_cons_of_neg (by decide)]
  simp

theorem indent_markerChar (n : Nat) :
    ∀ c ∈ List.replicate n ' ', markerChar c = true := by
  intro c hc
  rw [List.eq_of_mem_replicate hc]; rfl

theorem emitLines_map_stripMarkers (ind : Str) (ml : Nat) (fps : List Str)
    (hind : ∀ c ∈ ind, markerChar c = true) :
    (emitLines ind ml fps).map stripMarkers = fps.map (fun p => pad_line p ml) := by
  cases fps with
  | nil => rfl
  | cons p rest =>
    simp only [emitLines, List.map_cons, List.map_map]
    congr 1
    · rw [show ind ++ '"' :: pad_line p ml ++ ['"'] =
        ind ++ '"' :: (pad_line p ml ++ ['"']) from by simp]
      exact stripMarkers_wrap ind _ hind
    · apply List.map_congr_left
      intro q _
      show stripMarkers (ind ++ '+' :: ' ' :: '"' :: pad_line q ml ++ ['"']) = _
      rw [show ind ++ '+' :: ' ' :: '"' :: pad_line q ml ++ ['"'] =
        (ind ++ ['+', ' ']) ++ '"' :: (pad_line q ml ++ ['"']) from by simp]
      refine stripMarkers_wrap _ _ ?_
      intro c hc
      rcases List.mem_append.1 hc with h | h
      · exact hind c h
      · simp only [List.mem_cons, List.not_mem_nil, or_false] at h
        rcases h with rfl | rfl <;> rfl

/-!  ### Bounds from `find_max_length`  -/

theorem le_foldl_max (l : List Str) (a : Nat) :
    a ≤ l.foldl (fun m p => max m (rstrip p).length) a := by
  induction l generalizing a with
  | nil => exact Nat.le_refl a
  | cons q t ih => exact Nat.le_trans (Nat.le_max_left _ _) (ih _)

theorem mem_le_foldl_max (l : List Str) :
    ∀ (a : Nat) (p : Str), p ∈ l →
      (rstrip p).length ≤ l.foldl (fun m q => max m (rstrip q).length) a := by
  induction l with
  | nil => intro a p hp; cases hp
  | cons q t ih =>
    intro a p hp
    rcases List.mem_cons.1 hp with h | h
    · subst h
      exact Nat.le_trans (Nat.le_max_right _ _) (le_foldl_max t _)
    · exact ih _ p h

theorem lt_find_max_length (fps : List Str) (p : Str) (hp : p ∈ fps) :
    (rstrip p).length < find_max_length fps := by
  have h := mem_le_foldl_max fps 0 p hp
  unfold find_max_length
  omega

/-- The uniform width of a rendered block, read off from the block itself:
maximum quoted-content length after stripping trailing whitespace, plus
one. -/
def blockWidth (lines : List Str) : Nat :=
  (lines.foldl (fun m l => max m (rstrip (stripMarkers l)).length) 0) + 1

theorem blockWidth_emitLines (fps : List Str) (ind : Str) (ml : Nat)
    (hind : ∀ c ∈ ind, markerChar c = true) :
    blockWidth (emitLines ind ml fps) =
      (fps.foldl (fun m p => max m (rstrip p).length) 0) + 1 := by
  unfold blockWidth
  have h1 : (emitLines ind ml fps).foldl
      (fun m l => max m (rstrip (stripMarkers l)).length) 0 =
      ((emitLines ind ml fps).map stripMarkers).foldl
        (fun m x => max m (rstrip x).length) 0 := by
    rw [List.foldl_map]
  rw [h1, emitLines_map_stripMarkers ind ml fps hind, List.foldl_map]
  have hfun : (fun (m : Nat) (p : Str) => max m (rstrip (pad_line p ml)).length) =
      fun m p => max m (rstrip p).length := by
    funext m p
    rw [rstrip_pad_line]
  rw [hfun]

theorem stripMarkers_mem_format_sql (s bi l : Str) (h : l ∈ format_sql s bi) :
    ∃ p, p ∈ renderAll (segmentAux [] (pySplit (squeezeGo false (pyStrip s)))) ∧
      stripMarkers l =
        pad_line p (find_max_length
          (renderAll (segmentAux [] (pySplit (squeezeGo false (pyStrip s)))))) := by
  simp only [format_sql] at h
  have hmem : stripMarkers l ∈
      (emitLines (List.replicate (bi.length + 16) ' ')
        (find_max_length (renderAll (segmentAux [] (pySplit (squeezeGo false (pyStrip s))))))
        (renderAll (segmentAux [] (pySplit (squeezeGo false (pyStrip s)))))).map stripMarkers :=
    List.mem_map_of_mem _ h
  rw [emitLines_map_stripMarkers _ _ _ (indent_markerChar _)] at hmem
  obtain ⟨p, hp, hpl⟩ := List.mem_map.1 hmem
  exact ⟨p, hp, hpl.symm⟩

theorem format_sql_eq_emit (s bi : Str) :
    format_sql s bi =
      emitLines (List.replicate (bi.length + 16) ' ')
        (find_max_length (renderAll (segmentAux [] (pySplit (squeezeGo false (pyStrip s))))))
        (renderAll (segmentAux [] (pySplit (squeezeGo false (pyStrip s))))) := rfl

/-- C2: in every block produced by `format_sql`, every line's quoted content
has the same length, namely the maximum stripped content length over the
block plus one, and each content is its own stripped form padded with
trailing spaces (never truncated). -/
theorem c2_uniform_padding (s bi l : Str) (h : l ∈ format_sql s bi) :
    (stripMarkers l).length = blockWidth (format_sql s bi) ∧
    stripMarkers l = rstrip (stripMarkers l) ++
      List.replicate (blockWidth (format_sql s bi) - (rstrip (stripMarkers l)).length) ' ' := by
  obtain ⟨p, hp, he⟩ := stripMarkers_mem_format_sql s bi l h
  have hlt := lt_find_max_length _ p hp
  have hbw : blockWidth (format_sql s bi) = find_max_length
      (renderAll (segmentAux [] (pySplit (squeezeGo false (pyStrip s))))) := by
    rw [format_sql_eq_emit, blockWidth_emitLines _ _ _ (indent_markerChar _)]
    rfl
  constructor
  · rw [he, hbw]
    exact pad_line_length p _ (Nat.le_of_lt hlt)
  · rw [he, rstrip_pad_line, hbw]
    exact pad_line_eq p _

/-- C2 witness: a concrete block where the first line's content has the
uniform width. -/
theorem c2_witness :
    (str "                \"SELECT \"") ∈ format_sql (str "SELECT a, b FROM t") [] ∧
    (stripMarkers (str "                \"SELECT \"")).length =
      blockWidth (format_sql (str "SELECT a, b FROM t") []) := by
  exact ⟨by decide, (c2_uniform_padding _ _ _ (by decide)).1⟩

/-- C9: every quoted line content emitted by `format_sql` ends in at least
one trailing space, since the uniform width exceeds every stripped content
length. -/
theorem c9_trailing_space (s bi l : Str) (h : l ∈ format_sql s bi) :
    (stripMarkers l).getLast? = some ' ' := by
  obtain ⟨p, hp, he⟩ := stripMarkers_mem_format_sql s bi l h
  have hlt := lt_find_max_length _ p hp
  rw [he, pad_line_eq]
  have hsplit : find_max_length
      (renderAll (segmentAux [] (pySplit (squeezeGo false (pyStrip s))))) -
        (rstrip p).length =
      (find_max_length (renderAll (segmentAux [] (pySplit (squeezeGo false (pyStrip s))))) -
        (rstrip p).length - 1) + 1 := by omega
  rw [hsplit, List.replicate_succ', ← List.append_assoc, List.getLast?_concat]

/-- C9 witness: the first line of a concrete block ends in a space. -/
theorem c9_witness :
    (str "                \"SELECT \"") ∈ format_sql (str "SELECT a, b FROM t") [] ∧
    (stripMarkers (str "                \"SELECT \"")).getLast? = some ' ' := by
  exact ⟨by decide, c9_trailing_space (str "SELECT a, b FROM t") [] _ (by decide)⟩

/-!  ### C4: two-word keywords are tested first  -/

/-- C4: at any loop state, when the current word and the next word form a
recognized two-word keyword, the segmentation loop flushes the accumulated
free text and emits the two words as one keyword clause, advancing past
both — the single-word test is never reached, so the pair is never split. -/
theorem c4_two_word_priority (cur : List Str) (w1 w2 : Str) (rest : List Str)
    (h : is_sql_keyword (w1 ++ ' ' :: w2) = true) :
    segmentAux cur (w1 :: w2 :: rest) =
      (if cur = [] then [] else [spJoin cur]) ++ (w1 ++ ' ' :: w2) :: segmentAux [] rest := by
  simp [segmentAux, h]

/-- C4 witness: `ORDER BY` is emitted as a single clause. -/
theorem c4_witness :
    is_sql_keyword (str "ORDER" ++ ' ' :: str "BY") = true ∧
    segmentAux [] [str "ORDER", str "BY", str "x"] = [str "ORDER BY", str "x"] := by
  refine ⟨by decide, ?_⟩
  rw [c4_two_word_priority [] (str "ORDER") (str "BY") [str "x"] (by decide)]
  decide

/-!  ### C5: comma-list rendering  -/

/-- The claim's description of list-item extraction: split the clause on
commas, strip each item, drop empty items. -/
def cleanItems (p : Str) : List Str :=
  ((splitComma p).map pyStrip).filter (fun q => q ≠ [])

/-- The claim's description of comma reattachment: a trailing comma on every
item except the last. -/
def attachCommasClaim (items : List Str) : List Str :=
  (items.dropLast.map (fun q => q ++ [','])) ++ items.getLast?.toList

theorem splitComma_ne_nil (s : Str) : splitComma s ≠ [] := by
  cases s with
  | nil => simp [splitComma]
  | cons c t =>
    by_cases h : c = ','
    · simp [splitComma, h]
    · simp only [splitComma, if_neg h]
      cases splitComma t <;> simp

theorem splitComma_cons_comma (t : Str) : splitComma (',' :: t) = [] :: splitComma t := by
  simp [splitComma]

theorem splitComma_cons_ne (c : Char) (t : Str) (hc : ¬ c = ',') :
    splitComma (c :: t) =
      match splitComma t with
      | [] => [[c]]
      | h :: r => (c :: h) :: r := by
  simp [splitComma, if_neg hc]

theorem splitComma_append_commas (x cs : Str) (h : ∀ c ∈ cs, c = ',') :
    splitComma (x ++ cs) = splitComma x ++ List.replicate cs.length [] := by
  induction x with
  | nil =>
    simp only [List.nil_append]
    induction cs with
    | nil => rfl
    | cons c t ih =>
      have hc : c = ',' := h c (by simp)
      subst hc
      rw [splitComma_cons_comma, ih (fun d hd => h d (by simp [hd]))]
      simp [splitComma, List.replicate_succ]
  | cons c x' ih =>
    by_cases hc : c = ','
    · subst hc
      rw [List.cons_append, splitComma_cons_comma, splitComma_cons_comma, ih,
        List.cons_append]
    · rw [List.cons_append, splitComma_cons_ne c _ hc, splitComma_cons_ne c _ hc, ih]
      rcases hx : splitComma x' with _ | ⟨hd, tl⟩
      · exact absurd hx (splitComma_ne_nil x')
      · rfl

theorem rstripComma_decomp (p : Str) :
    ∃ cs, (∀ c ∈ cs, c = ',') ∧ p = rstripComma p ++ cs := by
  refine ⟨(p.reverse.takeWhile (fun c => decide (c = ','))).reverse, ?_, ?_⟩
  · intro c hc
    have := List.mem_takeWhile_imp (List.mem_reverse.1 hc)
    exact of_decide_eq_true this
  · rw [rstripComma, ← List.reverse_append, List.takeWhile_append_dropWhile,
      List.reverse_reverse]

theorem filter_ne_nil_replicate (n : Nat) :
    (List.replicate n ([] : Str)).filter (fun q => q ≠ []) = [] := by
  simp

theorem cleanItems_rstripComma (p : Str) : cleanItems (rstripComma p) = cleanItems p := by
  obtain ⟨cs, hcs, hp⟩ := rstripComma_decomp p
  conv_rhs => rw [hp]
  unfold cleanItems
  rw [splitComma_append_commas _ _ hcs, List.map_append, List.filter_append,
    List.map_replicate]
  rw [show pyStrip [] = [] from rfl, filter_ne_nil_replicate, List.append_nil]

theorem addCommas_eq (xs : List Str) : addCommas xs = attachCommasClaim xs := by
  unfold attachCommasClaim
  induction xs with
  | nil => rfl
  | cons x t ih =>
    cases t with
    | nil => simp [addCommas]
    | cons y r =>
      rw [show addCommas (x :: y :: r) = (x ++ [',']) :: addCommas (y :: r) from rfl, ih]
      simp

/-- C5: a non-keyword clause containing a comma renders exactly as the
claim describes: split on commas, strip items, drop empty items, reattach a
trailing comma to all but the last item, prefix each with the two-space
marker. -/
theorem c5_comma_list (p : Str) (hk : is_sql_keyword p = false) (hc : ',' ∈ p) :
    renderPart p = (attachCommasClaim (cleanItems p)).map (fun v => ' ' :: ' ' :: v) := by
  have h1 : renderPart p = (split_variables p).map (fun v => ' ' :: ' ' :: v) := by
    unfold renderPart
    rw [hk]
    simp [hc]
  rw [h1]
  congr 1
  unfold split_variables
  rw [show (((splitComma (rstripComma p)).map pyStrip).filter (fun q => q ≠ [])) =
    cleanItems (rstripComma p) from rfl, cleanItems_rstripComma, addCommas_eq]

/-- C5 witness: items `a`, `b`, `c` yield `  a,`, `  b,`, `  c`. -/
theorem c5_witness :
    is_sql_keyword (str "a, b, c") = false ∧ (',' ∈ str "a, b, c") ∧
    renderPart (str "a, b, c") = [str "  a,", str "  b,", str "  c"] := by
  refine ⟨by decide, by decide, ?_⟩
  rw [c5_comma_list (str "a, b, c") (by decide) (by decide)]
  decide

/-!  ### The `replace_sql` callback  -/

/-- Python prefix test helper: returns the remainder after a literal prefix. -/
def dropPref : Str → Str → Option Str
  | [], s => some s
  | _ :: _, [] => none
  | a :: as, b :: bs => if a = b then dropPref as bs else none

/-- Bool version of Python list-prefix matching. -/
def isPrefOf (n s : Str) : Bool := (dropPref n s).isSome

/-- Python `needle in haystack` on strings. -/
def substrIn (n : Str) : Str → Bool
  | [] => isPrefOf n []
  | c :: t => isPrefOf n (c :: t) || substrIn n t

/-- The method-selection chain of `replace_sql`: default `createQuery`,
then substring tests in order `createUpdate`, `prepareBatch`, `commit`. -/
def chooseMethod (s : Str) : Str :=
  if substrIn (str "createUpdate") s then str "createUpdate"
  else if substrIn (str "prepareBatch") s then str "prepareBatch"
  else if substrIn (str "commit") s then str "commit"
  else str "createQuery"

/-- One attempt at the regex fragment `\s*\+\s*"` (after a closing quote):
returns the consumed middle characters and the remainder on success. -/
def contMatch (t : Str) : Option (Str × Str) :=
  match t.dropWhile pySpace with
  | '+' :: t2 =>
    (match t2.dropWhile pySpace with
     | '"' :: t4 => some (t.takeWhile pySpace ++ '+' :: t2.takeWhile pySpace, t4)
     | _ => none)
  | _ => none

/-- Fuel-indexed scan for `re.sub(r'"\s*\+\s*"', ' ', s)`: each matched
continuation collapses to a single space. -/
def joinContF : Nat → Str → Str
  | 0, s => s
  | _ + 1, [] => []
  | f + 1, c :: t =>
    if c = '"' then
      match contMatch t with
      | some (_, r) => ' ' :: joinContF f r
      | none => '"' :: joinContF f t
    else c :: joinContF f t

/-- `re.sub(r'"\s*\+\s*"', ' ', s)` with sufficient fuel. -/
def joinContinuations (s : Str) : Str := joinContF s.length s

/-- Does `{method}\(\s*"` match at the start of `s`? -/
def searchPatAt (method s : Str) : Bool :=
  match dropPref method s with
  | some ('(' :: t1) =>
    (match t1.dropWhile pySpace with
     | '"' :: _ => true
     | _ => false)
  | _ => false

/-- `re.search(f'{method}\\(\\s*"', s)`: index of the leftmost match. -/
def findSearchStart (method : Str) : Str → Option Nat
  | [] => if searchPatAt method [] then some 0 else none
  | c :: t =>
    if searchPatAt method (c :: t) then some 0
    else (findSearchStart method t).map (fun n => n + 1)

/-- The Python `AttributeError` raised by `None.start()` when the method
name cannot be relocated in the matched text. -/
def attrErrMsg : Str := str "AttributeError: NoneType object has no attribute start"

/-- `replace_sql` from the source: `g0` is `match.group(0)` (the matched
text), `g1` is `match.group(1)` (the literal contents). -/
def replace_sql (g0 g1 : Str) : Except Str Str :=
  let sql_text := joinContinuations g1
  let base_indent := get_base_indentation g0
  let formatted_lines := format_sql sql_text base_indent
  if formatted_lines = [] then Except.ok g0
  else
    let formatted_sql := nlJoin formatted_lines
    let method := chooseMethod g0
    match findSearchStart method g0 with
    | none => Except.error attrErrMsg
    | some query_start =>
      Except.ok (g0.take query_start ++ method ++ '(' :: '\n' :: formatted_sql)

/-- C7: when formatting yields an empty line set, `replace_sql` returns the
original matched text unchanged. -/
theorem c7_empty_block (g0 g1 : Str)
    (h : format_sql (joinContinuations g1) (get_base_indentation g0) = []) :
    replace_sql g0 g1 = Except.ok g0 := by
  unfold replace_sql
  simp [h]

/-- C7 witness: a whitespace-only literal formats to zero lines and the
call site is left as it was. -/
theorem c7_witness :
    format_sql (joinContinuations (str " ")) (get_base_indentation (str "createQuery(\" \"")) = [] ∧
    replace_sql (str "createQuery(\" \"") (str " ") = Except.ok (str "createQuery(\" \"") :=
  ⟨by decide, c7_empty_block _ _ (by decide)⟩

/-!  ### C10: method-name selection  -/

/-- The four method names recognized by the call-site pattern. -/
def methodNames : List Str :=
  [str "createQuery", str "createUpdate", str "prepareBatch", str "commit"]

theorem substrIn_of_isPrefOf (n s : Str) (h : isPrefOf n s = true) :
    substrIn n s = true := by
  cases s with
  | nil => exact h
  | cons c t =>
    unfold substrIn
    rw [h, Bool.true_or]

/-- C10: the emitted method name comes from substring search over the whole
matched span in priority order `createUpdate`, `prepareBatch`, `commit`
with default `createQuery`; whenever the span starts with the matched
method and contains no other recognized method name as a substring, the
chosen name is the matched one. -/
theorem c10_method_choice (g0 m : Str) (hm : m ∈ methodNames)
    (hpref : isPrefOf m g0 = true)
    (hothers : ∀ m2 ∈ methodNames, m2 ≠ m → substrIn m2 g0 = false) :
    chooseMethod g0 = m := by
  have hsub := substrIn_of_isPrefOf m g0 hpref
  simp only [methodNames, List.mem_cons, List.not_mem_nil, or_false] at hm
  rcases hm with rfl | rfl | rfl | rfl
  · have h1 := hothers (str "createUpdate") (by simp [methodNames]) (by decide)
    have h2 := hothers (str "prepareBatch") (by simp [methodNames]) (by decide)
    have h3 := hothers (str "commit") (by simp [methodNames]) (by decide)
    unfold chooseMethod
    rw [h1, h2, h3]
    rfl
  · unfold chooseMethod
    rw [hsub]
    rfl
  · have h1 := hothers (str "createUpdate") (by simp [methodNames]) (by decide)
    unfold chooseMethod
    rw [h1, hsub]
    rfl
  · have h1 := hothers (str "createUpdate") (by simp [methodNames]) (by decide)
    have h2 := hothers (str "prepareBatch") (by simp [methodNames]) (by decide)
    unfold chooseMethod
    rw [h1, h2, hsub]
    rfl

/-- C10 witness: a `prepareBatch` call whose literal mentions no other
method name selects `prepareBatch`. -/
theorem c10_witness : chooseMethod (str "prepareBatch(\"SELECT x\"") = str "prepareBatch" :=
  c10_method_choice _ _ (by simp [methodNames]) (by decide) (by decide)

/-!  ### The call-site pattern and the substitution pass of `process_file`

The regex
`(?:createQuery|createUpdate|prepareBatch|commit)\(\s*"([^"]+(?:\s*"\s*\+\s*"[^"]+)*)"`
is embedded as a deterministic scanner: the bounded quantifiers cannot
overlap (`[^"]+` stops exactly at a quote), so greedy matching with
backtracking reduces to the explicit case analysis below.  -/

/-- The alternation of the four method names at the current position. -/
def methodAt (s : Str) : Option (Str × Str) :=
  match dropPref (str "createQuery") s with
  | some t => some (str "createQuery", t)
  | none =>
    match dropPref (str "createUpdate") s with
    | some t => some (str "createUpdate", t)
    | none =>
      match dropPref (str "prepareBatch") s with
      | some t => some (str "prepareBatch", t)
      | none =>
        match dropPref (str "commit") s with
        | some t => some (str "commit", t)
        | none => none

/-- The group-1 body `[^"]+(?:\s*"\s*\+\s*"[^"]+)*` followed by the closing
quote, returning the captured text and the remainder after the closing
quote.  A failed continuation attempt backtracks to ending the group at the
current quote.  Fuel-indexed; the scan consumes at least three characters
per recursive step. -/
def g1loopF : Nat → Str → Option (Str × Str)
  | 0, _ => none
  | f + 1, s =>
    let chunk := s.takeWhile (fun c => decide (c ≠ '"'))
    if chunk = [] then none
    else
      match s.dropWhile (fun c => decide (c ≠ '"')) with
      | [] => none
      | _ :: r1 =>
        match contMatch r1 with
        | some (mid, r5) =>
          (match g1loopF f r5 with
           | some (g, rem) => some (chunk ++ '"' :: mid ++ '"' :: g, rem)
           | none => some (chunk, r1))
        | none => some (chunk, r1)

/-- Attempt to match the full call-site pattern at the current position,
returning `match.group(0)`, `match.group(1)` and the remainder. -/
def matchAt (s : Str) : Option (Str × Str × Str) :=
  match methodAt s with
  | none => none
  | some (m, t) =>
    match t with
    | '(' :: t1 =>
      (match t1.dropWhile pySpace with
       | '"' :: t3 =>
         (match g1loopF t3.length t3 with
          | some (g1, rem) =>
            some (m ++ ('(' :: (t1.takeWhile pySpace ++ ('"' :: (g1 ++ ['"'])))), g1, rem)
          | none => none)
       | _ => none)
    | _ => none

/-- `re.sub(sql_pattern, replace_sql, content)`: left-to-right scan, each
match replaced (exceptions from the replacement propagate), unmatched
characters copied.  Fuel-indexed; every step consumes at least one
character. -/
def reSubAux : Nat → Str → Except Str Str
  | 0, s => Except.ok s
  | f + 1, s =>
    match matchAt s with
    | some (g0, g1, rem) =>
      (match replace_sql g0 g1 with
       | Except.error e => Except.error e
       | Except.ok r =>
         (match reSubAux f rem with
          | Except.error e => Except.error e
          | Except.ok out => Except.ok (r ++ out)))
    | none =>
      match s with
      | [] => Except.ok []
      | c :: t =>
        (match reSubAux f t with
         | Except.error e => Except.error e
         | Except.ok out => Except.ok (c :: out))

/-- `process_file` from the source, restricted to its content transform:
read and write are thin IO shells around the single `re.sub` pass, so the
function maps file content to new file content (or the propagated
exception). -/
def process_file (content : Str) : Except Str Str := reSubAux (content.length + 1) content

/-!  ### C8: files without a match are rewritten byte-identically  -/

theorem reSubAux_succ (f : Nat) (s : Str) :
    reSubAux (f + 1) s =
      match matchAt s with
      | some (g0, g1, rem) =>
        (match replace_sql g0 g1 with
         | Except.error e => Except.error e
         | Except.ok r =>
           (match reSubAux f rem with
            | Except.error e => Except.error e
            | Except.ok out => Except.ok (r ++ out)))
      | none =>
        match s with
        | [] => Except.ok []
        | c :: t =>
          (match reSubAux f t with
           | Except.error e => Except.error e
           | Except.ok out => Except.ok (c :: out)) := rfl

theorem reSubAux_no_match (f : Nat) (s : Str) (h : ∀ k, matchAt (s.drop k) = none) :
    reSubAux f s = Except.ok s := by
  induction f generalizing s with
  | zero => rfl
  | succ f ih =>
    have h0 := h 0
    rw [List.drop_zero] at h0
    rw [reSubAux_succ, h0]
    cases s with
    | nil => rfl
    | cons c t =>
      show (match reSubAux f t with
            | Except.error e => Except.error e
            | Except.ok out => Except.ok (c :: out)) = Except.ok (c :: t)
      rw [ih t fun k => by have hk := h (k + 1); rwa [List.drop_succ_cons] at hk]

/-- C8: if the call-site pattern matches at no position of the content, the
substitution pass returns the content byte-identically (the file is then
rewritten with identical bytes). -/
theorem c8_no_match_identity (content : Str)
    (h : ∀ k, matchAt (content.drop k) = none) :
    process_file content = Except.ok content :=
  reSubAux_no_match _ content h

theorem matchAt_none_beyond (s : Str) (h : ∀ k < s.length, matchAt (s.drop k) = none) :
    ∀ k, matchAt (s.drop k) = none := by
  intro k
  rcases Nat.lt_or_ge k s.length with hk | hk
  · exact h k hk
  · rw [List.drop_eq_nil_of_le hk]
    rfl

/-- C8 witness: a DAO file body with no recognized call site is returned
unchanged. -/
theorem c8_witness :
    process_file (str "class FooDao { int x; }") = Except.ok (str "class FooDao { int x; }") :=
  c8_no_match_identity _ (matchAt_none_beyond _ (by decide))

/-!  ### C6: the driver loop of `main`  -/

/-- One console/error-stream line produced by the driver for one file. -/
inductive LogLine where
  | okLine : Str → LogLine
  | errLine : Str → Str → LogLine
deriving DecidableEq

/-- The `for`-loop body of `main` with its `try`/`except`: each selected
file (a path/content pair; the directory walk, suffix filter and raw file
IO are thin shells abstracted as the input list) is processed, a failure is
caught at this per-file granularity and turned into an error-stream line
carrying the path and the cause, and iteration continues. -/
def mainLoop (files : List (Str × Str)) : List LogLine :=
  files.map fun f =>
    match process_file f.2 with
    | Except.ok _ => LogLine.okLine f.1
    | Except.error e => LogLine.errLine f.1 e

/-- C6: a file whose processing raises is reported on the error stream with
its path and the cause, and the files before and after it are processed
exactly as they would be on their own: no per-file failure aborts the
traversal, and the log has one entry per file. -/
theorem c6_per_file_isolation (pre post : List (Str × Str)) (p c e : Str)
    (h : process_file c = Except.error e) :
    mainLoop (pre ++ (p, c) :: post) =
      mainLoop pre ++ LogLine.errLine p e :: mainLoop post ∧
    (mainLoop (pre ++ (p, c) :: post)).length = pre.length + 1 + post.length := by
  constructor
  · unfold mainLoop
    rw [List.map_append, List.map_cons]
    simp only [h]
  · unfold mainLoop
    simp [List.length_append]
    omega

/-- C6 witness: a file whose SQL literal contains the word `commit` makes
`replace_sql` fail to relocate the method token (the exception the source
raises via `None.start()`); the driver logs it and still processes the
following file. -/
theorem c6_witness :
    process_file (str "createQuery(\"SELECT commit\")") = Except.error attrErrMsg ∧
    mainLoop [(str "ADao.java", str "class A {}"),
              (str "BDao.java", str "createQuery(\"SELECT commit\")"),
              (str "CDao.java", str "class C {}")] =
      [LogLine.okLine (str "ADao.java"),
       LogLine.errLine (str "BDao.java") attrErrMsg,
       LogLine.okLine (str "CDao.java")] := by
  refine ⟨rfl, ?_⟩
  have h := (c6_per_file_isolation [(str "ADao.java", str "class A {}")]
    [(str "CDao.java", str "class C {}")]
    (str "BDao.java") (str "createQuery(\"SELECT commit\")") attrErrMsg rfl).1
  rw [show ([(str "ADao.java", str "class A {}"),
              (str "BDao.java", str "createQuery(\"SELECT commit\")"),
              (str "CDao.java", str "class C {}")] :
      List (Str × Str)) =
    [(str "ADao.java", str "class A {}")] ++
      (str "BDao.java", str "createQuery(\"SELECT commit\")") ::
        [(str "CDao.java", str "class C {}")] from rfl, h]
  decide

/-!  ### C3: the base indentation actually used  -/

theorem methodAt_shape (s m t : Str) (h : methodAt s = some (m, t)) :
    m ∈ methodNames := by
  unfold methodAt at h
  split at h
  · cases h; simp [methodNames]
  · split at h
    · cases h; simp [methodNames]
    · split at h
      · cases h; simp [methodNames]
      · split at h
        · cases h; simp [methodNames]
        · cases h

theorem base_indent_method (m x : Str) (hm : m ∈ methodNames) :
    get_base_indentation (m ++ x) = [] := by
  simp only [methodNames, List.mem_cons, List.not_mem_nil, or_false] at hm
  have hhead : ∃ c r, m = c :: r ∧ pySpace c = false := by
    rcases hm with rfl | rfl | rfl | rfl
    · exact ⟨'c', str "reateQuery", by decide, rfl⟩
    · exact ⟨'c', str "reateUpdate", by decide, rfl⟩
    · exact ⟨'p', str "repareBatch", by decide, rfl⟩
    · exact ⟨'c', str "ommit", by decide, rfl⟩
  obtain ⟨c, r, rfl, hc⟩ := hhead
  simp [get_base_indentation, hc]

/-- C3: the code passes `match.group(0)` — which always begins with a
method name, never with whitespace — to `get_base_indentation`, so the base
indent is always empty and every emitted line sits at column 16 regardless
of the call line's indentation.  Concretely, a `createQuery` call indented
by four spaces is re-emitted with its quoted lines at column 16, not 20. -/
theorem c3_base_indent_bug :
    (∀ s g0 g1 rem, matchAt s = some (g0, g1, rem) → get_base_indentation g0 = []) ∧
    process_file (str "    createQuery(\"SELECT a\")") =
      Except.ok (str "    createQuery(\n                \"SELECT \"\n                + \"  a    \")") := by
  constructor
  · intro s g0 g1 rem h
    unfold matchAt at h
    split at h
    · cases h
    · rename_i m t hmt
      split at h
      · split at h
        · split at h
          · rename_i g1x remx hg
            cases h
            apply base_indent_method
            exact methodAt_shape s m _ hmt
          · cases h
        · cases h
      · cases h
  · rfl

/-- C3 witness: the general fact applied at a concrete matched span. -/
theorem c3_witness :
    matchAt (str "createQuery(\"x\"") = some (str "createQuery(\"x\"", str "x", ([] : Str)) ∧
    get_base_indentation (str "createQuery(\"x\"") = [] := by
  constructor
  · decide
  · exact c3_base_indent_bug.1 (str "createQuery(\"x\"") _ (str "x") [] (by decide)

/-!  ### C1: reconstruction of the SQL text from an emitted block

Helper notions: a string has nonspace ends, a word list is a list of
nonempty space-free tokens (the shape `str.split()` produces).  -/

/-- No leading whitespace (vacuous for the empty string). -/
def headNS (s : Str) : Prop := ∀ c, s.head? = some c → pySpace c = false

/-- No trailing whitespace (vacuous for the empty string). -/
def lastNS (s : Str) : Prop := ∀ c, s.getLast? = some c → pySpace c = false

/-- The shape of `str.split()` output: nonempty, space-free tokens. -/
def cleanWords (ws : List Str) : Prop :=
  ∀ w ∈ ws, w ≠ [] ∧ ∀ c ∈ w, pySpace c = false

theorem head?_dropWhile_not {p : Char → Bool} (l : Str) :
    ∀ c, (l.dropWhile p).head? = some c → p c = false := by
  induction l with
  | nil => intro c h; cases h
  | cons a t ih =>
    intro c h
    by_cases ha : p a = true
    · rw [List.dropWhile_cons_of_pos ha] at h
      exact ih c h
    · rw [List.dropWhile_cons_of_neg ha] at h
      cases h
      exact Bool.eq_false_iff.2 ha

theorem dropWhile_eq_self_of_head {p : Char → Bool} (l : Str)
    (h : ∀ c, l.head? = some c → p c = false) : l.dropWhile p = l := by
  cases l with
  | nil => rfl
  | cons a t =>
    refine List.dropWhile_cons_of_neg ?_
    rw [h a rfl]
    exact Bool.false_ne_true

theorem lstrip_eq_self (s : Str) (h : headNS s) : lstrip s = s :=
  dropWhile_eq_self_of_head s h

theorem rstrip_eq_self (s : Str) (h : lastNS s) : rstrip s = s := by
  unfold rstrip
  rw [dropWhile_eq_self_of_head s.reverse (by
    intro c hc
    rw [List.head?_reverse] at hc
    exact h c hc), List.reverse_reverse]

theorem pyStrip_eq_self (s : Str) (h1 : headNS s) (h2 : lastNS s) : pyStrip s = s := by
  unfold pyStrip
  rw [rstrip_eq_self s h2, lstrip_eq_self s h1]

theorem lstrip_headNS (s : Str) : headNS (lstrip s) :=
  fun c h => head?_dropWhile_not s c h

theorem rstrip_lastNS (s : Str) : lastNS (rstrip s) := by
  intro c h
  unfold rstrip at h
  rw [List.getLast?_reverse] at h
  exact head?_dropWhile_not s.reverse c h

theorem pyStrip_headNS (s : Str) : headNS (pyStrip s) :=
  lstrip_headNS (rstrip s)

theorem lstrip_getLast? (s : Str) (h : lstrip s ≠ []) :
    (lstrip s).getLast? = s.getLast? := by
  conv_rhs => rw [← List.takeWhile_append_dropWhile (p := pySpace) (l := s)]
  rw [List.getLast?_append]
  rcases hd : (lstrip s).getLast? with _ | c
  · exact absurd (List.getLast?_eq_none_iff.1 hd) h
  · rw [show s.dropWhile pySpace = lstrip s from rfl, hd]
    rfl

theorem pyStrip_lastNS (s : Str) : lastNS (pyStrip s) := by
  intro c h
  by_cases hn : pyStrip s = []
  · rw [hn] at h
    cases h
  · unfold pyStrip at h hn
    rw [lstrip_getLast? (rstrip s) hn] at h
    exact rstrip_lastNS s c h

/-!  ### C1: `spJoin` and `splitWsGo` algebra  -/

theorem spJoin_cons (x : Str) (xs : List Str) (h : xs ≠ []) :
    spJoin (x :: xs) = x ++ ' ' :: spJoin xs := by
  cases xs with
  | nil => cases h rfl
  | cons y ys => rfl

theorem spJoin_append (as bs : List Str) (ha : as ≠ []) (hb : bs ≠ []) :
    spJoin (as ++ bs) = spJoin as ++ ' ' :: spJoin bs := by
  induction as with
  | nil => cases ha rfl
  | cons a as ih =>
    cases as with
    | nil =>
      rw [List.singleton_append, spJoin_cons a bs hb]
      rfl
    | cons a2 as2 =>
      rw [List.cons_append, spJoin_cons a ((a2 :: as2) ++ bs) (by simp),
        ih (by simp), spJoin_cons a (a2 :: as2) (by simp)]
      simp [List.append_assoc]

theorem splitWsGo_word (w : Str) (hw : ∀ c ∈ w, pySpace c = false) :
    ∀ (acc s : Str), splitWsGo acc (w ++ s) = splitWsGo (acc ++ w) s := by
  induction w with
  | nil => intro acc s; rw [List.nil_append, List.append_nil]
  | cons c w' ih =>
    intro acc s
    have hc : pySpace c = false := hw c (by simp)
    rw [List.cons_append, show splitWsGo acc (c :: (w' ++ s)) =
      splitWsGo (acc ++ [c]) (w' ++ s) from by simp [splitWsGo, hc],
      ih (fun d hd => hw d (by simp [hd])), List.append_assoc]
    rfl

theorem splitWsGo_space_cons (acc : Str) (hacc : acc ≠ []) (s : Str) :
    splitWsGo acc (' ' :: s) = acc :: splitWsGo [] s := by
  simp [splitWsGo, hacc, show pySpace ' ' = true from rfl]

theorem splitWsGo_spaces_drop (sp : Str) (hsp : ∀ c ∈ sp, pySpace c = true) :
    ∀ s, splitWsGo [] (sp ++ s) = splitWsGo [] s := by
  induction sp with
  | nil => intro s; rfl
  | cons c sp' ih =>
    intro s
    have hc := hsp c (by simp)
    rw [List.cons_append, show splitWsGo [] (c :: (sp' ++ s)) =
      splitWsGo [] (sp' ++ s) from by simp [splitWsGo, hc],
      ih (fun d hd => hsp d (by simp [hd]))]

theorem splitWsGo_spaces_flush (acc sp : Str) (hsp : ∀ c ∈ sp, pySpace c = true)
    (hacc : acc ≠ []) (s : Str) (hsp0 : sp ≠ []) :
    splitWsGo acc (sp ++ s) = acc :: splitWsGo [] s := by
  cases sp with
  | nil => cases hsp0 rfl
  | cons c sp' =>
    have hc := hsp c (by simp)
    rw [List.cons_append, show splitWsGo acc (c :: (sp' ++ s)) =
      acc :: splitWsGo [] (sp' ++ s) from by simp [splitWsGo, hc, hacc],
      splitWsGo_spaces_drop sp' (fun d hd => hsp d (by simp [hd]))]

theorem splitWsGo_all_spaces (acc sp : Str) (hsp : ∀ c ∈ sp, pySpace c = true) :
    splitWsGo acc sp = if acc = [] then [] else [acc] := by
  induction sp generalizing acc with
  | nil => rfl
  | cons c sp' ih =>
    have hc := hsp c (by simp)
    have hsp2 : ∀ d ∈ sp', pySpace d = true := fun d hd => hsp d (by simp [hd])
    by_cases hacc : acc = []
    · subst hacc
      rw [show splitWsGo [] (c :: sp') = splitWsGo [] sp' from by simp [splitWsGo, hc],
        ih [] hsp2]
    · rw [show splitWsGo acc (c :: sp') = acc :: splitWsGo [] sp' from by
        simp [splitWsGo, hc, hacc],
        ih [] hsp2, if_neg hacc, if_pos rfl]

theorem splitWsGo_trailing_spaces (x sp : Str) (hsp : ∀ c ∈ sp, pySpace c = true) :
    ∀ acc, splitWsGo acc (x ++ sp) = splitWsGo acc x := by
  induction x with
  | nil =>
    intro acc
    rw [List.nil_append, splitWsGo_all_spaces acc sp hsp]
    rfl
  | cons c x' ih =>
    intro acc
    by_cases hc : pySpace c = true
    · by_cases hacc : acc = []
      · subst hacc
        rw [List.cons_append, show splitWsGo [] (c :: (x' ++ sp)) =
          splitWsGo [] (x' ++ sp) from by simp [splitWsGo, hc],
          show splitWsGo [] (c :: x') = splitWsGo [] x' from by simp [splitWsGo, hc],
          ih []]
      · rw [List.cons_append, show splitWsGo acc (c :: (x' ++ sp)) =
          acc :: splitWsGo [] (x' ++ sp) from by simp [splitWsGo, hc, hacc],
          show splitWsGo acc (c :: x') = acc :: splitWsGo [] x' from by
            simp [splitWsGo, hc, hacc],
          ih []]
    · rw [List.cons_append, show splitWsGo acc (c :: (x' ++ sp)) =
        splitWsGo (acc ++ [c]) (x' ++ sp) from by simp [splitWsGo, hc],
        show splitWsGo acc (c :: x') = splitWsGo (acc ++ [c]) x' from by
          simp [splitWsGo, hc],
        ih (acc ++ [c])]

theorem splitWsGo_clean (s : Str) :
    ∀ acc, (∀ c ∈ acc, pySpace c = false) →
      ∀ w ∈ splitWsGo acc s, w ≠ [] ∧ ∀ c ∈ w, pySpace c = false := by
  induction s with
  | nil =>
    intro acc hacc w hw
    by_cases h : acc = []
    · rw [show splitWsGo acc [] = if acc = [] then [] else [acc] from rfl, if_pos h] at hw
      cases hw
    · rw [show splitWsGo acc [] = if acc = [] then [] else [acc] from rfl, if_neg h] at hw
      rcases List.mem_singleton.1 hw with rfl
      exact ⟨h, hacc⟩
  | cons c t ih =>
    intro acc hacc w hw
    by_cases hc : pySpace c = true
    · by_cases hacc0 : acc = []
      · subst hacc0
        rw [show splitWsGo [] (c :: t) = splitWsGo [] t from by simp [splitWsGo, hc]] at hw
        exact ih [] (by intro d hd; cases hd) w hw
      · rw [show splitWsGo acc (c :: t) = acc :: splitWsGo [] t from by
          simp [splitWsGo, hc, hacc0]] at hw
        rcases List.mem_cons.1 hw with rfl | hw2
        · exact ⟨hacc0, hacc⟩
        · exact ih [] (by intro d hd; cases hd) w hw2
    · rw [show splitWsGo acc (c :: t) = splitWsGo (acc ++ [c]) t from by
        simp [splitWsGo, hc]] at hw
      refine ih (acc ++ [c]) ?_ w hw
      intro d hd
      rcases List.mem_append.1 hd with h1 | h1
      · exact hacc d h1
      · rcases List.mem_singleton.1 h1 with rfl
        exact Bool.eq_false_iff.2 hc

theorem pySplit_clean (s : Str) : cleanWords (pySplit s) :=
  fun w hw => splitWsGo_clean s [] (by intro d hd; cases hd) w hw

theorem pySplit_spJoin (ws : List Str) (h : cleanWords ws) :
    pySplit (spJoin ws) = ws := by
  induction ws with
  | nil => rfl
  | cons w ws' ih =>
    have hw := h w (by simp)
    cases ws' with
    | nil =>
      have h1 : splitWsGo [] (w ++ []) = splitWsGo ([] ++ w) [] := splitWsGo_word w hw.2 [] []
      rw [List.append_nil, List.nil_append] at h1
      show splitWsGo [] w = [w]
      rw [h1, splitWsGo_all_spaces w [] (by intro d hd; cases hd), if_neg hw.1]
    | cons w2 ws2 =>
      rw [spJoin_cons w (w2 :: ws2) (by simp)]
      show splitWsGo [] (w ++ ' ' :: spJoin (w2 :: ws2)) = _
      rw [splitWsGo_word w hw.2 [] _, List.nil_append,
        splitWsGo_space_cons w hw.1 _]
      show w :: pySplit (spJoin (w2 :: ws2)) = _
      rw [ih (fun v hv => h v (by simp [hv]))]

/-!  ### C1: `squeezeGo` algebra  -/

theorem squeezeGo_nonspace_cons (b : Bool) (c : Char) (t : Str) (hc : pySpace c = false) :
    squeezeGo b (c :: t) = c :: squeezeGo false t := by
  simp [squeezeGo, hc]

theorem squeezeGo_true_eq_false (s : Str) (hs : headNS s) :
    squeezeGo true s = squeezeGo false s := by
  cases s with
  | nil => rfl
  | cons c t =>
    have hc := hs c rfl
    rw [squeezeGo_nonspace_cons true c t hc, squeezeGo_nonspace_cons false c t hc]

theorem squeezeGo_word (w : Str) (hw : ∀ c ∈ w, pySpace c = false) :
    ∀ (b : Bool) (s : Str), w ≠ [] → squeezeGo b (w ++ s) = w ++ squeezeGo false s := by
  induction w with
  | nil => intro b s h; cases h rfl
  | cons c w' ih =>
    intro b s _
    have hc := hw c (by simp)
    rw [List.cons_append, squeezeGo_nonspace_cons b c _ hc]
    cases w2 : w' with
    | nil => simp
    | cons d w3 =>
      rw [← w2, ih (fun d hd => hw d (by simp [hd])) false s (by rw [w2]; simp)]
      simp

theorem squeezeGo_true_spaces (sp : Str) (hsp : ∀ c ∈ sp, pySpace c = true) :
    ∀ s, squeezeGo true (sp ++ s) = squeezeGo true s := by
  induction sp with
  | nil => intro s; rfl
  | cons c sp' ih =>
    intro s
    have hc := hsp c (by simp)
    rw [List.cons_append, show squeezeGo true (c :: (sp' ++ s)) =
      squeezeGo true (sp' ++ s) from by simp [squeezeGo, hc],
      ih (fun d hd => hsp d (by simp [hd]))]

theorem squeezeGo_spaces (sp : Str) (hsp : ∀ c ∈ sp, pySpace c = true) (hsp0 : sp ≠ [])
    (s : Str) (hs : headNS s) :
    squeezeGo false (sp ++ s) = ' ' :: squeezeGo false s := by
  cases sp with
  | nil => cases hsp0 rfl
  | cons c sp' =>
    have hc := hsp c (by simp)
    rw [List.cons_append, show squeezeGo false (c :: (sp' ++ s)) =
      ' ' :: squeezeGo true (sp' ++ s) from by simp [squeezeGo, hc],
      squeezeGo_true_spaces sp' (fun d hd => hsp d (by simp [hd])) s,
      squeezeGo_true_eq_false s hs]

/-!  ### C1: ends of space-joined clean words  -/

theorem spJoin_clean_ends (ws : List Str) (h : cleanWords ws) :
    (ws ≠ [] → spJoin ws ≠ []) ∧ headNS (spJoin ws) ∧ lastNS (spJoin ws) := by
  induction ws with
  | nil =>
    refine ⟨fun h0 => absurd rfl h0, ?_, ?_⟩
    · intro c hc
      cases hc
    · intro c hc
      cases hc
  | cons w ws' ih =>
    have hw := h w (by simp)
    have ih2 := ih (fun v hv => h v (by simp [hv]))
    cases ws' with
    | nil =>
      refine ⟨fun _ => hw.1, ?_, ?_⟩
      · intro c hc
        exact hw.2 c (List.mem_of_mem_head? (by rwa [show spJoin [w] = w from rfl] at hc))
      · intro c hc
        exact hw.2 c (List.mem_of_getLast?_eq_some (by
          rwa [show spJoin [w] = w from rfl] at hc))
    | cons w2 ws2 =>
      have hne : spJoin (w2 :: ws2) ≠ [] := ih2.1 (by simp)
      rw [spJoin_cons w (w2 :: ws2) (by simp)]
      refine ⟨fun _ => by simp [hw.1], ?_, ?_⟩
      · intro c hc
        rw [List.head?_append] at hc
        rcases hh : (w : Str).head? with _ | d
        · rcases w with _ | ⟨e, w'⟩
          · exact absurd rfl hw.1
          · cases hh
        · rw [hh] at hc
          cases hc
          exact hw.2 c (List.mem_of_mem_head? hh)
      · intro c hc
        rw [List.getLast?_append] at hc
        have hlast : (' ' :: spJoin (w2 :: ws2)).getLast? = (spJoin (w2 :: ws2)).getLast? := by
          rw [show (' ' :: spJoin (w2 :: ws2) : Str) = [' '] ++ spJoin (w2 :: ws2) from rfl,
            List.getLast?_append]
          rcases hg : (spJoin (w2 :: ws2)).getLast? with _ | d
          · exact absurd (List.getLast?_eq_none_iff.1 hg) hne
          · rfl
        rw [hlast] at hc
        rcases hg : (spJoin (w2 :: ws2)).getLast? with _ | d
        · exact absurd (List.getLast?_eq_none_iff.1 hg) hne
        · rw [hg] at hc
          cases hc
          exact ih2.2.2 c hg

/-- Whitespace normalization of a string: the formatter's own first step. -/
def collapse (s : Str) : Str := squeezeGo false (pyStrip s)

theorem squeezeGo_spJoin_clean (ws : List Str) (h : cleanWords ws) :
    squeezeGo false (spJoin ws) = spJoin ws := by
  induction ws with
  | nil => rfl
  | cons w ws' ih =>
    have hw := h w (by simp)
    cases ws' with
    | nil =>
      show squeezeGo false (spJoin [w]) = spJoin [w]
      have h1 := squeezeGo_word w hw.2 false [] hw.1
      rw [List.append_nil] at h1
      rw [show spJoin [w] = w from rfl, h1,
        show squeezeGo false ([] : Str) = [] from rfl, List.append_nil]
    | cons w2 ws2 =>
      have ihe := spJoin_clean_ends (w2 :: ws2) (fun v hv => h v (by simp [hv]))
      rw [spJoin_cons w (w2 :: ws2) (by simp),
        squeezeGo_word w hw.2 false _ hw.1]
      congr 1
      rw [show (' ' :: spJoin (w2 :: ws2) : Str) = [' '] ++ spJoin (w2 :: ws2) from rfl,
        squeezeGo_spaces [' ']
          (by intro d hd; rcases List.mem_singleton.1 hd with rfl; rfl)
          (by simp) _ ihe.2.1,
        ih (fun v hv => h v (by simp [hv]))]
      rfl

theorem collapse_spJoin_clean (ws : List Str) (h : cleanWords ws) :
    collapse (spJoin ws) = spJoin ws := by
  have he := spJoin_clean_ends ws h
  unfold collapse
  rw [pyStrip_eq_self _ he.2.1 he.2.2, squeezeGo_spJoin_clean ws h]

/-!  ### C1: `collapse` agrees with join-of-split  -/

theorem lastNS_append_right (x y : Str) (_hy : y ≠ []) (h : lastNS (x ++ y)) :
    lastNS y := by
  intro c hc
  refine h c ?_
  rw [List.getLast?_append, hc]
  rfl

theorem getLast?_some_of_ne_nil (y : Str) (hy : y ≠ []) : ∃ c, y.getLast? = some c := by
  rcases hg : y.getLast? with _ | c
  · exact absurd (List.getLast?_eq_none_iff.1 hg) hy
  · exact ⟨c, rfl⟩

theorem split_head_word (t : Str) (hne : t ≠ []) (h1 : headNS t) :
    ∃ w r, t = w ++ r ∧ w ≠ [] ∧ (∀ c ∈ w, pySpace c = false) ∧
      r = t.dropWhile (fun d => !pySpace d) := by
  refine ⟨t.takeWhile (fun d => !pySpace d), t.dropWhile (fun d => !pySpace d),
    (List.takeWhile_append_dropWhile _ _).symm, ?_, ?_, rfl⟩
  · cases t with
    | nil => cases hne rfl
    | cons c t' =>
      rw [List.takeWhile_cons_of_pos (by simp [h1 c rfl])]
      simp
  · intro c hc
    have := List.mem_takeWhile_imp hc
    simpa using this

theorem squeeze_split_core : ∀ (n : Nat) (t : Str), t.length ≤ n → headNS t → lastNS t →
    squeezeGo false t = spJoin (splitWsGo [] t) := by
  intro n
  induction n with
  | zero =>
    intro t ht _ _
    have h0 : t = [] := List.length_eq_zero.1 (Nat.le_zero.1 ht)
    subst h0
    rfl
  | succ n ih =>
    intro t ht h1 h2
    rcases ht0 : t with _ | ⟨c, t'⟩
    · rfl
    · subst ht0
      obtain ⟨w, r, hdec, hwne, hwclean, hrdef⟩ := split_head_word (c :: t') (by simp) h1
      have hsq : squeezeGo false (c :: t') = w ++ squeezeGo false r := by
        conv_lhs => rw [hdec]
        exact squeezeGo_word w hwclean false r hwne
      have hsw : splitWsGo [] (c :: t') = splitWsGo w r := by
        conv_lhs => rw [hdec]
        have := splitWsGo_word w hwclean [] r
        rwa [List.nil_append] at this
      rcases hr : r with _ | ⟨d, r2⟩
      · rw [hsq, hr, hsw, hr,
          splitWsGo_all_spaces w [] (by intro e he; cases he), if_neg hwne]
        show w ++ [] = spJoin [w]
        rw [List.append_nil]
        rfl
      · have hd : pySpace d = true := by
          have := head?_dropWhile_not (p := fun e => !pySpace e) (c :: t') d
            (by rw [← hrdef, hr]; rfl)
          simpa using this
        have hsp : ∀ e ∈ r.takeWhile pySpace, pySpace e = true :=
          fun e he => List.mem_takeWhile_imp he
        have hspne : r.takeWhile pySpace ≠ [] := by
          rw [hr, List.takeWhile_cons_of_pos hd]
          simp
        have hs2head : headNS (r.dropWhile pySpace) :=
          fun e he => head?_dropWhile_not r e he
        have hrdec : r = r.takeWhile pySpace ++ r.dropWhile pySpace :=
          (List.takeWhile_append_dropWhile _ _).symm
        have hlastr : lastNS r := by
          refine lastNS_append_right w r ?_ ?_
          · rw [hr]; simp
          · rwa [← hdec]
        have hs2ne : r.dropWhile pySpace ≠ [] := by
          intro h0
          have hrsp : r = r.takeWhile pySpace := by
            conv_lhs => rw [hrdec]
            rw [h0, List.append_nil]
          obtain ⟨e, he⟩ := getLast?_some_of_ne_nil r (by rw [hr]; simp)
          have hes : pySpace e = true := by
            refine hsp e ?_
            rw [← hrsp]
            exact List.mem_of_getLast?_eq_some he
          have := hlastr e he
          rw [hes] at this
          cases this
        have hs2last : lastNS (r.dropWhile pySpace) := by
          refine lastNS_append_right (r.takeWhile pySpace) _ hs2ne ?_
          rwa [← hrdec]
        have hs2len : (r.dropWhile pySpace).length ≤ n := by
          have h1l := congrArg List.length hdec
          rw [List.length_append] at h1l
          have h2l := congrArg List.length hrdec
          rw [List.length_append] at h2l
          have hw1 : 1 ≤ w.length := List.length_pos.2 hwne
          have hsp1 : 1 ≤ (r.takeWhile pySpace).length := List.length_pos.2 hspne
          rw [List.length_cons] at h1l ht
          omega
        have ihs2 := ih (r.dropWhile pySpace) hs2len hs2head hs2last
        have hsqr : squeezeGo false r = ' ' :: squeezeGo false (r.dropWhile pySpace) := by
          conv_lhs => rw [hrdec]
          exact squeezeGo_spaces _ hsp hspne _ hs2head
        have hswr : splitWsGo w r = w :: splitWsGo [] (r.dropWhile pySpace) := by
          conv_lhs => rw [hrdec]
          exact splitWsGo_spaces_flush w _ hsp hwne _ hspne
        have hsplitne : splitWsGo [] (r.dropWhile pySpace) ≠ [] := by
          intro h0
          rw [h0] at ihs2
          rcases hs : r.dropWhile pySpace with _ | ⟨e, s3⟩
          · exact hs2ne hs
          · have he : pySpace e = false := hs2head e (by rw [hs]; rfl)
            rw [hs, squeezeGo_nonspace_cons false e s3 he] at ihs2
            cases ihs2
        rw [hsq, hsw, hswr, hsqr, ihs2,
          spJoin_cons w _ hsplitne]

theorem rstrip_decomp (s : Str) :
    ∃ sp, (∀ c ∈ sp, pySpace c = true) ∧ s = rstrip s ++ sp := by
  refine ⟨(s.reverse.takeWhile pySpace).reverse, ?_, ?_⟩
  · intro c hc
    exact List.mem_takeWhile_imp (List.mem_reverse.1 hc)
  · rw [rstrip, ← List.reverse_append, List.takeWhile_append_dropWhile,
      List.reverse_reverse]

theorem pySplit_rstrip (s : Str) : pySplit (rstrip s) = pySplit s := by
  obtain ⟨sp, hsp, hs⟩ := rstrip_decomp s
  conv_rhs => rw [hs]
  exact (splitWsGo_trailing_spaces (rstrip s) sp hsp []).symm

theorem pySplit_lstrip (s : Str) : pySplit (lstrip s) = pySplit s := by
  conv_rhs => rw [show s = s.takeWhile pySpace ++ s.dropWhile pySpace from
    (List.takeWhile_append_dropWhile _ _).symm]
  exact (splitWsGo_spaces_drop (s.takeWhile pySpace)
    (fun c hc => List.mem_takeWhile_imp hc) (lstrip s)).symm

theorem pySplit_pyStrip (s : Str) : pySplit (pyStrip s) = pySplit s := by
  unfold pyStrip
  rw [pySplit_lstrip (rstrip s), pySplit_rstrip s]

/-- `collapse` (strip then squeeze whitespace runs) produces exactly the
single-space join of the whitespace-split tokens. -/
theorem collapse_eq_spJoin_pySplit (s : Str) : collapse s = spJoin (pySplit s) := by
  unfold collapse
  rw [squeeze_split_core (pyStrip s).length (pyStrip s) (Nat.le_refl _)
    (pyStrip_headNS s) (pyStrip_lastNS s)]
  rw [show splitWsGo [] (pyStrip s) = pySplit (pyStrip s) from rfl, pySplit_pyStrip s]

/-!  ### C1: segmentation preserves the word sequence  -/

theorem segmentAux_ne_nil : ∀ (ws cur : List Str), cur ≠ [] ∨ ws ≠ [] →
    segmentAux cur ws ≠ []
  | [], cur, h => by
    rcases h with h | h
    · simp [segmentAux, h]
    · cases h rfl
  | [w], cur, h => by
    by_cases hk : is_sql_keyword w = true
    · simp [segmentAux, hk]
    · simp [segmentAux, hk]
  | w1 :: w2 :: rest, cur, h => by
    by_cases hk2 : is_sql_keyword (w1 ++ ' ' :: w2) = true
    · simp [segmentAux, hk2]
    · by_cases hk1 : is_sql_keyword w1 = true
      · simp [segmentAux, hk2, hk1]
      · rw [show segmentAux cur (w1 :: w2 :: rest) = segmentAux (cur ++ [w1]) (w2 :: rest)
          from by simp [segmentAux, hk2, hk1]]
        exact segmentAux_ne_nil (w2 :: rest) (cur ++ [w1]) (Or.inr (by simp))

theorem spJoin_flush_append (cur : List Str) (X : List Str) (hX : X ≠ []) :
    spJoin ((if cur = [] then [] else [spJoin cur]) ++ X) = spJoin (cur ++ X) := by
  by_cases h : cur = []
  · rw [if_pos h, h]
  · rw [if_neg h, spJoin_append [spJoin cur] X (by simp) hX,
      spJoin_append cur X h hX]
    rfl

theorem spJoin_append_congr (cur X Y : List Str) (hX : X ≠ []) (hY : Y ≠ [])
    (h : spJoin X = spJoin Y) : spJoin (cur ++ X) = spJoin (cur ++ Y) := by
  by_cases hc : cur = []
  · rw [hc, List.nil_append, List.nil_append, h]
  · rw [spJoin_append cur X hc hX, spJoin_append cur Y hc hY, h]

theorem segmentAux_join : ∀ (ws cur : List Str),
    spJoin (segmentAux cur ws) = spJoin (cur ++ ws)
  | [], cur => by
    by_cases h : cur = []
    · rw [show segmentAux cur [] = if cur = [] then [] else [spJoin cur] from rfl,
        if_pos h, h]
      rfl
    · rw [show segmentAux cur [] = if cur = [] then [] else [spJoin cur] from rfl,
        if_neg h, List.append_nil]
      rfl
  | [w], cur => by
    by_cases hk : is_sql_keyword w = true
    · rw [show segmentAux cur [w] = (if cur = [] then [] else [spJoin cur]) ++ [w]
        from by simp [segmentAux, hk]]
      exact spJoin_flush_append cur [w] (by simp)
    · rw [show segmentAux cur [w] = [spJoin (cur ++ [w])]
        from by simp [segmentAux, hk]]
      rfl
  | w1 :: w2 :: rest, cur => by
    by_cases hk2 : is_sql_keyword (w1 ++ ' ' :: w2) = true
    · rw [show segmentAux cur (w1 :: w2 :: rest) =
        (if cur = [] then [] else [spJoin cur]) ++
          (w1 ++ ' ' :: w2) :: segmentAux [] rest
        from by simp [segmentAux, hk2],
        spJoin_flush_append cur _ (by simp)]
      refine spJoin_append_congr cur _ _ (by simp) (by simp) ?_
      cases rest with
      | nil => rfl
      | cons w3 rest2 =>
        have hne := segmentAux_ne_nil (w3 :: rest2) [] (Or.inr (by simp))
        rw [spJoin_cons _ _ hne, segmentAux_join (w3 :: rest2) [], List.nil_append,
          spJoin_cons w1 (w2 :: w3 :: rest2) (by simp),
          spJoin_cons w2 (w3 :: rest2) (by simp)]
        simp
    · by_cases hk1 : is_sql_keyword w1 = true
      · rw [show segmentAux cur (w1 :: w2 :: rest) =
          (if cur = [] then [] else [spJoin cur]) ++ w1 :: segmentAux [] (w2 :: rest)
          from by simp [segmentAux, hk2, hk1],
          spJoin_flush_append cur _ (by simp)]
        refine spJoin_append_congr cur _ _ (by simp) (by simp) ?_
        have hne := segmentAux_ne_nil (w2 :: rest) [] (Or.inr (by simp))
        rw [spJoin_cons _ _ hne, segmentAux_join (w2 :: rest) [], List.nil_append,
          spJoin_cons w1 (w2 :: rest) (by simp)]
      · rw [show segmentAux cur (w1 :: w2 :: rest) = segmentAux (cur ++ [w1]) (w2 :: rest)
          from by simp [segmentAux, hk2, hk1],
          segmentAux_join (w2 :: rest) (cur ++ [w1])]
        simp

/-!  ### C1: every segmented clause is nonempty with nonspace ends  -/

theorem clean_word_props (w : Str) (h : w ≠ [] ∧ ∀ c ∈ w, pySpace c = false) :
    w ≠ [] ∧ headNS w ∧ lastNS w :=
  ⟨h.1, fun c hc => h.2 c (List.mem_of_mem_head? hc),
    fun c hc => h.2 c (List.mem_of_getLast?_eq_some hc)⟩

theorem flush_mem_props (cur : List Str) (hcur : cleanWords cur) (p : Str)
    (hp : p ∈ (if cur = [] then [] else [spJoin cur])) :
    p ≠ [] ∧ headNS p ∧ lastNS p := by
  by_cases h : cur = []
  · rw [if_pos h] at hp
    cases hp
  · rw [if_neg h] at hp
    rcases List.mem_singleton.1 hp with rfl
    have he := spJoin_clean_ends cur hcur
    exact ⟨he.1 h, he.2.1, he.2.2⟩

theorem cleanWords_tail {w : Str} {ws : List Str} (h : cleanWords (w :: ws)) :
    cleanWords ws :=
  fun v hv => h v (by simp [hv])

theorem segmentAux_parts : ∀ (ws cur : List Str), cleanWords ws → cleanWords cur →
    ∀ p ∈ segmentAux cur ws, p ≠ [] ∧ headNS p ∧ lastNS p
  | [], cur, _, hcur => by
    intro p hp
    exact flush_mem_props cur hcur p hp
  | [w], cur, hws, hcur => by
    intro p hp
    have hw := hws w (by simp)
    by_cases hk : is_sql_keyword w = true
    · rw [show segmentAux cur [w] = (if cur = [] then [] else [spJoin cur]) ++ [w]
        from by simp [segmentAux, hk]] at hp
      rcases List.mem_append.1 hp with h | h
      · exact flush_mem_props cur hcur p h
      · rcases List.mem_singleton.1 h with rfl
        exact clean_word_props _ hw
    · rw [show segmentAux cur [w] = [spJoin (cur ++ [w])]
        from by simp [segmentAux, hk]] at hp
      rcases List.mem_singleton.1 hp with rfl
      have hclean : cleanWords (cur ++ [w]) := by
        intro v hv
        rcases List.mem_append.1 hv with h | h
        · exact hcur v h
        · rcases List.mem_singleton.1 h with rfl
          exact hw
      have he := spJoin_clean_ends (cur ++ [w]) hclean
      exact ⟨he.1 (by simp), he.2.1, he.2.2⟩
  | w1 :: w2 :: rest, cur, hws, hcur => by
    intro p hp
    have hw1 := hws w1 (by simp)
    have hw2 := hws w2 (by simp)
    by_cases hk2 : is_sql_keyword (w1 ++ ' ' :: w2) = true
    · rw [show segmentAux cur (w1 :: w2 :: rest) =
        (if cur = [] then [] else [spJoin cur]) ++
          (w1 ++ ' ' :: w2) :: segmentAux [] rest
        from by simp [segmentAux, hk2]] at hp
      rcases List.mem_append.1 hp with h | h
      · exact flush_mem_props cur hcur p h
      · rcases List.mem_cons.1 h with rfl | h2
        · have hclean : cleanWords [w1, w2] := by
            intro v hv
            rcases List.mem_cons.1 hv with rfl | hv2
            · exact hw1
            · rcases List.mem_singleton.1 hv2 with rfl
              exact hw2
          have he := spJoin_clean_ends [w1, w2] hclean
          exact ⟨he.1 (by simp), he.2.1, he.2.2⟩
        · exact segmentAux_parts rest [] (cleanWords_tail (cleanWords_tail hws))
            (by intro v hv; cases hv) p h2
    · by_cases hk1 : is_sql_keyword w1 = true
      · rw [show segmentAux cur (w1 :: w2 :: rest) =
          (if cur = [] then [] else [spJoin cur]) ++ w1 :: segmentAux [] (w2 :: rest)
          from by simp [segmentAux, hk2, hk1]] at hp
        rcases List.mem_append.1 hp with h | h
        · exact flush_mem_props cur hcur p h
        · rcases List.mem_cons.1 h with rfl | h2
          · exact clean_word_props _ hw1
          · exact segmentAux_parts (w2 :: rest) [] (cleanWords_tail hws)
              (by intro v hv; cases hv) p h2
      · rw [show segmentAux cur (w1 :: w2 :: rest) = segmentAux (cur ++ [w1]) (w2 :: rest)
          from by simp [segmentAux, hk2, hk1]] at hp
        refine segmentAux_parts (w2 :: rest) (cur ++ [w1]) (cleanWords_tail hws) ?_ p hp
        intro v hv
        rcases List.mem_append.1 hv with h | h
        · exact hcur v h
        · rcases List.mem_singleton.1 h with rfl
          exact hw1

/-!  ### C1: list items have nonspace ends  -/

theorem addCommas_mem (xs : List Str) (v : Str) (hv : v ∈ addCommas xs) :
    v ∈ xs ∨ ∃ q ∈ xs, v = q ++ [','] := by
  induction xs with
  | nil => cases hv
  | cons x t ih =>
    cases t with
    | nil =>
      rcases List.mem_singleton.1 hv with rfl
      exact Or.inl (by simp)
    | cons y r =>
      rw [show addCommas (x :: y :: r) = (x ++ [',']) :: addCommas (y :: r) from rfl] at hv
      rcases List.mem_cons.1 hv with rfl | h2
      · exact Or.inr ⟨x, by simp, rfl⟩
      · rcases ih h2 with h | ⟨q, hq, rfl⟩
        · exact Or.inl (by simp [h])
        · exact Or.inr ⟨q, by simp [hq], rfl⟩

theorem split_variables_mem (p v : Str) (hv : v ∈ split_variables p) :
    v ≠ [] ∧ headNS v ∧ lastNS v := by
  unfold split_variables at hv
  have hitem : ∀ q ∈ (((splitComma (rstripComma p)).map pyStrip).filter
      (fun q => q ≠ [])), q ≠ [] ∧ headNS q ∧ lastNS q := by
    intro q hq
    have h1 := List.mem_filter.1 hq
    have h2 := of_decide_eq_true h1.2
    obtain ⟨piece, -, rfl⟩ := List.mem_map.1 h1.1
    exact ⟨h2, pyStrip_headNS piece, pyStrip_lastNS piece⟩
  rcases addCommas_mem _ v hv with h | ⟨q, hq, rfl⟩
  · exact hitem v h
  · have hqp := hitem q hq
    refine ⟨by simp, ?_, ?_⟩
    · intro c hc
      rw [List.head?_append] at hc
      rcases hh : (q : Str).head? with _ | d
      · exact absurd (List.head?_eq_none_iff.1 hh) hqp.1
      · rw [hh] at hc
        cases hc
        exact hqp.2.1 c hh
    · intro c hc
      rw [List.getLast?_concat] at hc
      cases hc
      rfl

/-!  ### C1: rendering, padding and emission are reconstructible  -/

theorem pyStrip_marker (x : Str) (hx : x ≠ []) (h1 : headNS x) (h2 : lastNS x) :
    pyStrip (' ' :: ' ' :: x) = x := by
  unfold pyStrip
  have hr : rstrip (' ' :: ' ' :: x) = ' ' :: ' ' :: x := by
    apply rstrip_eq_self
    intro c hc
    rw [show (' ' :: ' ' :: x : Str) = [' ', ' '] ++ x from rfl, List.getLast?_append] at hc
    obtain ⟨d, hd⟩ := getLast?_some_of_ne_nil x hx
    rw [hd] at hc
    cases hc
    exact h2 _ hd
  rw [hr]
  show lstrip (' ' :: ' ' :: x) = x
  unfold lstrip
  rw [List.dropWhile_cons_of_pos (by rfl), List.dropWhile_cons_of_pos (by rfl)]
  exact dropWhile_eq_self_of_head x h1

theorem renderPart_recon (p : Str) (hp : p ≠ [] ∧ headNS p ∧ lastNS p)
    (hcomma : is_sql_keyword p = false → ',' ∈ p → spJoin (split_variables p) = p) :
    (renderPart p).map pyStrip ≠ [] ∧ spJoin ((renderPart p).map pyStrip) = p := by
  unfold renderPart
  by_cases hk : is_sql_keyword p = true
  · rw [if_pos hk]
    refine ⟨by simp, ?_⟩
    show spJoin [pyStrip p] = p
    rw [show spJoin [pyStrip p] = pyStrip p from rfl, pyStrip_eq_self p hp.2.1 hp.2.2]
  · rw [if_neg hk]
    by_cases hc : ',' ∈ p
    · rw [if_pos (decide_eq_true hc)]
      have hsv : split_variables p ≠ [] := by
        intro h0
        have hj := hcomma (Bool.eq_false_iff.2 hk) hc
        rw [h0] at hj
        exact hp.1 hj.symm
      have hmap : ((split_variables p).map (fun v => ' ' :: ' ' :: v)).map pyStrip =
          split_variables p := by
        rw [List.map_map]
        conv_rhs => rw [← List.map_id (split_variables p)]
        refine List.map_congr_left ?_
        intro v hv
        have hvp := split_variables_mem p v hv
        show pyStrip (' ' :: ' ' :: v) = v
        exact pyStrip_marker v hvp.1 hvp.2.1 hvp.2.2
      rw [hmap]
      exact ⟨hsv, hcomma (Bool.eq_false_iff.2 hk) hc⟩
    · rw [if_neg (by simp [hc])]
      refine ⟨by simp, ?_⟩
      show spJoin [pyStrip (' ' :: ' ' :: p)] = p
      rw [show spJoin [pyStrip (' ' :: ' ' :: p)] = pyStrip (' ' :: ' ' :: p) from rfl,
        pyStrip_marker p hp.1 hp.2.1 hp.2.2]

theorem renderAll_recon (parts : List Str)
    (hp : ∀ p ∈ parts, p ≠ [] ∧ headNS p ∧ lastNS p)
    (hcomma : ∀ p ∈ parts, is_sql_keyword p = false → ',' ∈ p →
      spJoin (split_variables p) = p) :
    spJoin ((renderAll parts).map pyStrip) = spJoin parts := by
  induction parts with
  | nil => rfl
  | cons p rest ih =>
    rw [show renderAll (p :: rest) = renderPart p ++ renderAll rest from rfl,
      List.map_append]
    have hrp := renderPart_recon p (hp p (by simp)) (hcomma p (by simp))
    cases rest with
    | nil =>
      rw [show renderAll ([] : List Str) = [] from rfl, List.map_nil, List.append_nil,
        hrp.2]
      rfl
    | cons q rest2 =>
      have hrr : (renderAll (q :: rest2)).map pyStrip ≠ [] := by
        have hq := renderPart_recon q (hp q (by simp)) (hcomma q (by simp))
        rw [show renderAll (q :: rest2) = renderPart q ++ renderAll rest2 from rfl,
          List.map_append]
        intro h0
        rcases List.append_eq_nil.1 h0 with ⟨h1, -⟩
        exact hq.1 h1
      rw [spJoin_append _ _ hrp.1 hrr, hrp.2,
        ih (fun v hv => hp v (by simp [hv])) (fun v hv => hcomma v (by simp [hv])),
        spJoin_cons p (q :: rest2) (by simp)]

/-- Undoing one emitted line, per the claim's recipe: drop the indent, the
`+ ` concatenation marker and the surrounding quotes, then the two-space
body marker and the trailing padding. -/
def reconLine (l : Str) : Str := pyStrip (stripMarkers l)

/-- The claim's reconstruction of a block: undo every line, join the
contents, collapse whitespace. -/
def reconstructSql (lines : List Str) : Str :=
  collapse (spJoin (lines.map reconLine))

theorem emitLines_map_reconLine (ind : Str) (ml : Nat) (fps : List Str)
    (hind : ∀ c ∈ ind, markerChar c = true) :
    (emitLines ind ml fps).map reconLine = fps.map pyStrip := by
  have h1 : (emitLines ind ml fps).map reconLine =
      ((emitLines ind ml fps).map stripMarkers).map pyStrip := by
    rw [List.map_map]
    rfl
  rw [h1, emitLines_map_stripMarkers ind ml fps hind, List.map_map]
  refine List.map_congr_left ?_
  intro p _
  show pyStrip (pad_line p ml) = pyStrip p
  unfold pyStrip
  rw [rstrip_pad_line p ml]

/-- C1 (amended): for every SQL text whose comma-bearing free-text clauses
are already in normalized list form (rejoining the split items reproduces
the clause), stripping the quotes, markers and padding from the lines that
`format_sql` produces, joining the contents and collapsing whitespace
reconstructs exactly the whitespace-normalized original text. -/
theorem c1_reconstruction (s bi : Str)
    (hcomma : ∀ p ∈ segmentAux [] (pySplit (squeezeGo false (pyStrip s))),
        is_sql_keyword p = false → ',' ∈ p → spJoin (split_variables p) = p) :
    reconstructSql (format_sql s bi) = collapse s := by
  have hwsclean : cleanWords (pySplit (squeezeGo false (pyStrip s))) := pySplit_clean _
  have hparts := segmentAux_parts (pySplit (squeezeGo false (pyStrip s))) []
    hwsclean (by intro v hv; cases hv)
  unfold reconstructSql
  rw [format_sql_eq_emit s bi,
    emitLines_map_reconLine _ _ _ (indent_markerChar _),
    renderAll_recon _ hparts hcomma,
    segmentAux_join _ [], List.nil_append]
  have hcol : spJoin (pySplit (collapse s)) = collapse s := by
    rw [collapse_eq_spJoin_pySplit s, pySplit_spJoin (pySplit s) (pySplit_clean s)]
  show collapse (spJoin (pySplit (collapse s))) = collapse s
  rw [hcol, collapse_eq_spJoin_pySplit s]
  exact collapse_spJoin_clean (pySplit s) (pySplit_clean s)

/-- C1 counterexample: with a space before the comma, the reconstruction
yields `x, y` while the whitespace-normalized original is `x ,y` — the
item stripping inside `split_variables` is an extra, non-whitespace
difference, so the claim as stated fails. -/
theorem c1_counterexample :
    reconstructSql (format_sql (str "x ,y") []) ≠ collapse (str "x ,y") := by
  decide

/-- C1 witness: the spec's end-to-end example satisfies the normalized-
comma-form hypothesis and reconstructs exactly. -/
theorem c1_witness :
    (∀ p ∈ segmentAux []
        (pySplit (squeezeGo false (pyStrip (str "SELECT id, name FROM users WHERE id = :id")))),
        is_sql_keyword p = false → ',' ∈ p → spJoin (split_variables p) = p) ∧
    reconstructSql (format_sql (str "SELECT id, name FROM users WHERE id = :id") (str "    ")) =
      collapse (str "SELECT id, name FROM users WHERE id = :id") :=
  ⟨by decide, c1_reconstruction _ _ (by decide)⟩
